import Mathlib

/-!
Verification of the movie-riddles solver (src/riddles/riddle_solver.py)
against its natural-language specification.  The Python module is embedded
shallowly: file contents are Lean strings, dictionaries are association
lists in insertion order, and the SHA-1 digest is implemented over Nat
bytes exactly as the reference algorithm that hashlib computes.
-/

namespace MovieRiddles

set_option maxRecDepth 4000

/-! ### Python string primitives -/

/-- Whitespace characters stripped by Python str.strip (ASCII range). -/
def isPySpace (c : Char) : Bool :=
  decide (c = ' ') || decide (c = Char.ofNat 9) || decide (c = Char.ofNat 10) ||
  decide (c = Char.ofNat 13) || decide (c = Char.ofNat 11) || decide (c = Char.ofNat 12)

/-- List-level strip: drop whitespace from the front and the back. -/
def stripChars (l : List Char) : List Char :=
  ((l.dropWhile isPySpace).reverse.dropWhile isPySpace).reverse

/-- Python str.strip. -/
def pyStrip (s : String) : String := ⟨stripChars s.data⟩

/-- Python str.lower on one character (ASCII letters). -/
def lowerChar (c : Char) : Char :=
  if 65 ≤ c.toNat ∧ c.toNat ≤ 90 then Char.ofNat (c.toNat + 32) else c

/-- The normalization applied by check_hash: strip then lower. -/
def normalize (s : String) : String := ⟨(pyStrip s).data.map lowerChar⟩

/-- UTF-8 encoding of one code point, as a byte list. -/
def utf8Bytes (c : Char) : List Nat :=
  let n := c.toNat
  if n < 128 then [n]
  else if n < 2048 then [192 + n / 64, 128 + n % 64]
  else if n < 65536 then [224 + n / 4096, 128 + (n / 64) % 64, 128 + n % 64]
  else [240 + n / 262144, 128 + (n / 4096) % 64, 128 + (n / 64) % 64, 128 + n % 64]

/-- UTF-8 bytes of a string. -/
def strBytes (s : String) : List Nat :=
  s.data.foldr (fun c acc => utf8Bytes c ++ acc) []

/-! ### SHA-1 (the digest hashlib.sha1 computes) -/

def pow32 : Nat := 4294967296

/-- Rotate a 32-bit word left by k bits. -/
def rotl32 (x k : Nat) : Nat := ((x <<< k) % pow32) ||| (x >>> (32 - k))

/-- SHA-1 round function. -/
def sha1f (t b c d : Nat) : Nat :=
  if t < 20 then (b &&& c) ||| ((b ^^^ 4294967295) &&& d)
  else if t < 40 then b ^^^ c ^^^ d
  else if t < 60 then (b &&& c) ||| (b &&& d) ||| (c &&& d)
  else b ^^^ c ^^^ d

/-- SHA-1 round constants. -/
def sha1K (t : Nat) : Nat :=
  if t < 20 then 1518500249
  else if t < 40 then 1859775393
  else if t < 60 then 2400959708
  else 3395469782

/-- Big-endian 8-byte encoding of a length-in-bits counter. -/
def be8 (n : Nat) : List Nat :=
  [(n >>> 56) % 256, (n >>> 48) % 256, (n >>> 40) % 256, (n >>> 32) % 256,
   (n >>> 24) % 256, (n >>> 16) % 256, (n >>> 8) % 256, n % 256]

/-- SHA-1 message padding to a multiple of 64 bytes. -/
def sha1Pad (msg : List Nat) : List Nat :=
  msg ++ [128] ++ List.replicate ((120 - ((msg.length + 1) % 64)) % 64) 0 ++
    be8 (msg.length * 8)

def chunksAux : Nat → List Nat → List (List Nat)
  | 0, _ => []
  | _, [] => []
  | fuel + 1, l => l.take 64 :: chunksAux fuel (l.drop 64)

/-- Split a byte list into 64-byte blocks. -/
def chunks64 (l : List Nat) : List (List Nat) := chunksAux l.length l

/-- Pack bytes into big-endian 32-bit words. -/
def bytesToWords : List Nat → List Nat
  | b0 :: b1 :: b2 :: b3 :: rest =>
      (b0 * 16777216 + b1 * 65536 + b2 * 256 + b3) :: bytesToWords rest
  | _ => []

/-- Extend the 16 block words to the 80-entry message schedule. -/
def sha1Extend : Nat → List Nat → List Nat
  | 0, ws => ws
  | n + 1, ws =>
      let m := ws.length
      sha1Extend n (ws ++ [rotl32 ((ws.getD (m - 3) 0) ^^^ (ws.getD (m - 8) 0) ^^^
        (ws.getD (m - 14) 0) ^^^ (ws.getD (m - 16) 0)) 1])

structure Sha1State where
  a : Nat
  b : Nat
  c : Nat
  d : Nat
  e : Nat
deriving DecidableEq

def sha1Round (st : Sha1State) (t w : Nat) : Sha1State :=
  ⟨(rotl32 st.a 5 + sha1f t st.b st.c st.d + st.e + sha1K t + w) % pow32,
   st.a, rotl32 st.b 30, st.c, st.d⟩

def sha1Rounds : List Nat → Nat → Sha1State → Sha1State
  | [], _, st => st
  | w :: ws, t, st => sha1Rounds ws (t + 1) (sha1Round st t w)

def sha1Init : Sha1State :=
  ⟨1732584193, 4023233417, 2562383102, 271733878, 3285377520⟩

def sha1Block (h : Sha1State) (block : List Nat) : Sha1State :=
  let ws := sha1Extend 64 (bytesToWords block)
  let f := sha1Rounds ws 0 h
  ⟨(h.a + f.a) % pow32, (h.b + f.b) % pow32, (h.c + f.c) % pow32,
   (h.d + f.d) % pow32, (h.e + f.e) % pow32⟩

/-- Big-endian bytes of one 32-bit word. -/
def wordBytes (w : Nat) : List Nat :=
  [(w >>> 24) % 256, (w >>> 16) % 256, (w >>> 8) % 256, w % 256]

/-- SHA-1 digest (20 bytes) of a byte list. -/
def sha1Bytes (msg : List Nat) : List Nat :=
  let fin := (chunks64 (sha1Pad msg)).foldl sha1Block sha1Init
  wordBytes fin.a ++ wordBytes fin.b ++ wordBytes fin.c ++
    wordBytes fin.d ++ wordBytes fin.e

def hexDigitChar (n : Nat) : Char :=
  if n < 10 then Char.ofNat (48 + n) else Char.ofNat (87 + n)

def byteHex (b : Nat) : List Char := [hexDigitChar (b / 16), hexDigitChar (b % 16)]

/-- Lowercase hexadecimal SHA-1 digest of the UTF-8 bytes of a string,
as hashlib.sha1 over the encoded string followed by hexdigest. -/
def sha1_hex (s : String) : String :=
  ⟨(sha1Bytes (strBytes s)).foldr (fun b acc => byteHex b ++ acc) []⟩

/-! ### Riddle directory artifacts -/

/-- Contents of one riddle directory: the verification artifact verify.py
and the answer artifact solution.txt, each present or absent. -/
structure RiddleDir where
  verifyFile : Option String
  solutionFile : Option String
deriving DecidableEq

/-- get_solution: read solution.txt, strip it, and treat an absent file or an
all-whitespace file as no answer. -/
def get_solution (d : RiddleDir) : Option String :=
  match d.solutionFile with
  | none => none
  | some content =>
      let s := pyStrip content
      if s = "" then none else some s

/-- The literal part of the extraction regex in get_hash, up to and
including the opening quote. -/
def patChars : List Char := "assert sha1(solution).hexdigest() == ".data ++ [Char.ofNat 39]

/-- Whether a pattern list is an initial segment of a character list. -/
def listStartsWith : List Char → List Char → Bool
  | [], _ => true
  | _ :: _, [] => false
  | p :: ps, c :: cs => decide (p = c) && listStartsWith ps cs

/-- Index of the last single-quote character in a list, if any. -/
def lastIdxQuote : List Char → Option Nat
  | [] => none
  | c :: rest =>
      match lastIdxQuote rest with
      | some j => some (j + 1)
      | none => if c = Char.ofNat 39 then some 0 else none

/-- Greedy match of the regex tail after the opening quote: the dot
matches any character but a newline, so the group runs to the last quote
on the current line and must be non-empty. -/
def regexGroup (l : List Char) : Option (List Char) :=
  let line := l.takeWhile (fun c => decide (c ≠ Char.ofNat 10))
  match lastIdxQuote line with
  | none => none
  | some j => if 1 ≤ j then some (line.take j) else none

/-- re.search for the get_hash pattern: try every start position from the
left; at a position where the literal matches, succeed when the greedy
group part succeeds, else keep scanning. -/
def reSearchHash : List Char → Option (List Char)
  | [] => none
  | c :: rest =>
      if listStartsWith patChars (c :: rest) then
        match regexGroup ((c :: rest).drop patChars.length) with
        | some g => some g
        | none => reSearchHash rest
      else reSearchHash rest

/-- get_hash: read verify.py and extract the quoted digest via re.search;
absent file or no match gives None. -/
def get_hash (d : RiddleDir) : Option String :=
  match d.verifyFile with
  | none => none
  | some content => (reSearchHash content.data).map (fun g => String.mk g)

/-- check_hash: Python `solution and sha1(solution.strip().lower()
.encode()).hexdigest() == hash or False`.  A falsy (None or empty) answer
short-circuits to False; a None hash compares unequal to every digest. -/
def check_hash (hash : Option String) (solution : Option String) : Bool :=
  match solution with
  | none => false
  | some s =>
      if s = "" then false
      else
        match hash with
        | none => false
        | some h => decide (sha1_hex (normalize s) = h)

/-- check_riddle: does the recorded answer match the recorded digest. -/
def check_riddle (d : RiddleDir) : Bool :=
  check_hash (get_hash d) (get_solution d)

/-! ### Registry scan -/

/-- One entry of os.listdir over the movies directory: either a plain file
(skipped by the isdir test) or a riddle directory with its contents.  The
name is the directory name parsed as the integer riddle index. -/
inductive Entry where
  | file (name : Int)
  | dir (name : Int) (content : RiddleDir)
deriving DecidableEq

/-- Loop body of get_hashes_and_solutions: skip non-directories; a
directory passing check_riddle contributes its recorded answer to
solutions (the answer is necessarily present there, since check_hash
rejects a None answer; getD only discharges the Option); any other
directory contributes its (possibly None) digest to hashes. -/
def ghsStep (acc : List (Int × Option String) × List (Int × String)) (e : Entry) :
    List (Int × Option String) × List (Int × String) :=
  match e with
  | Entry.file _ => acc
  | Entry.dir name d =>
      if check_riddle d then
        (acc.1, acc.2 ++ [(name, (get_solution d).getD "")])
      else
        (acc.1 ++ [(name, get_hash d)], acc.2)

/-- get_hashes_and_solutions: classify each listed entry in order. -/
def get_hashes_and_solutions (entries : List Entry) :
    List (Int × Option String) × List (Int × String) :=
  entries.foldl ghsStep ([], [])

/-! ### Brute-force resolver -/

/-- Python dict assignment: overwrite in place when the key exists,
append otherwise. -/
def dictSet (l : List (Int × String)) (k : Int) (v : String) : List (Int × String) :=
  if l.any (fun p => decide (p.1 = k)) then
    l.map (fun p => if p.1 = k then (p.1, v) else p)
  else l ++ [(k, v)]

/-- One candidate against the mutable (hashes, solutions) state: scan the
pending entries in insertion order, and on the first digest the candidate
matches, record the answer, delete the pending entry and break. -/
def resolveStep (st : List (Int × Option String) × List (Int × String)) (title : String) :
    List (Int × Option String) × List (Int × String) :=
  match st.1.find? (fun p => check_hash p.2 (some title)) with
  | none => st
  | some p => (st.1.eraseP (fun q => decide (q.1 = p.1)), dictSet st.2 p.1 title)

/-- Consume the whole candidate sequence in order. -/
def resolve (cs : List String) (st : List (Int × Option String) × List (Int × String)) :
    List (Int × Option String) × List (Int × String) :=
  cs.foldl resolveStep st

/-- Python str.split on the tab separator, at the character-list level:
split at every tab, keeping empty fields. -/
def splitTabChars : List Char → List (List Char)
  | [] => [[]]
  | c :: rest =>
      if c = Char.ofNat 9 then [] :: splitTabChars rest
      else
        match splitTabChars rest with
        | [] => [[c]]
        | g :: gs => (c :: g) :: gs

/-- Python str.split on a tab, as used on each dataset line. -/
def pySplitTab (s : String) : List String := (splitTabChars s.data).map String.mk

/-- Column index of the movie title in the dataset. -/
def title_index : Nat := 3

/-- find_solutions: read the dataset lines, iterate i over range(1, total-1),
split line i on tabs, take the title column and run the matching step. -/
def find_solutions (lines : List String) (hashes : List (Int × Option String))
    (solutions : List (Int × String)) :
    List (Int × Option String) × List (Int × String) :=
  resolve
    ((List.range' 1 (lines.length - 2)).map
      (fun i => (pySplitTab (lines.getD i "")).getD title_index ""))
    (hashes, solutions)

/-- Candidate Source, following the specification text: tab-separated
records, one per line, yielding the field at titleColumnIndex, skipping
the first record and the final record. -/
def produceCandidates (lines : List String) (titleColumnIndex : Nat) : List String :=
  ((lines.drop 1).dropLast).map (fun l => (pySplitTab l).getD titleColumnIndex "")

/-! ### Result writer -/

/-- The movies directory as a map from riddle index to directory contents;
the zero-padded directory name is determined by the index. -/
def fsGet (fs : List (Int × RiddleDir)) (k : Int) : Option RiddleDir :=
  (fs.find? (fun p => decide (p.1 = k))).map Prod.snd

/-- Overwrite the solution artifact of riddle k. -/
def fsSetSolution (fs : List (Int × RiddleDir)) (k : Int) (content : String) :
    List (Int × RiddleDir) :=
  fs.map (fun p => if p.1 = k then (p.1, ⟨p.2.verifyFile, some content⟩) else p)

/-- write_solutions: for every entry write the stripped answer into the
riddle directory, failing (None) when the directory does not exist. -/
def write_solutions (solutions : List (Int × String)) (fs : List (Int × RiddleDir)) :
    Option (List (Int × RiddleDir)) :=
  solutions.foldl
    (fun acc p =>
      match acc with
      | none => none
      | some f =>
          if (fsGet f p.1).isSome then some (fsSetSolution f p.1 (pyStrip p.2))
          else none)
    (some fs)

/-- Read the recorded answer of riddle k from the filesystem: locate the
riddle directory, then read its answer artifact with get_solution. -/
def get_solution_at (fs : List (Int × RiddleDir)) (k : Int) : Option String :=
  (fsGet fs k).bind get_solution

/-! ### Solve pipeline control flow -/

/-- The observable steps of execute_riddle_solver. -/
inductive Action where
  | scanRegistry
  | printNoHashes
  | checkSolutions
  | downloadData
  | bruteForce
  | persistSolutions
deriving DecidableEq

/-- execute_riddle_solver as its trace of effects: scan the registry; with
no pending hashes print the message and run the verification pass, else
download the dataset, brute-force and persist. -/
def execute_riddle_solver (entries : List Entry) : List Action :=
  if (get_hashes_and_solutions entries).1.length = 0 then
    [Action.scanRegistry, Action.printNoHashes, Action.checkSolutions]
  else
    [Action.scanRegistry, Action.downloadData, Action.bruteForce, Action.persistSolutions]

/-! ### Basic lemmas about the matcher -/

lemma check_hash_none_sol (h : Option String) : check_hash h none = false := rfl

lemma check_hash_none_hash (s : Option String) : check_hash none s = false := by
  cases s with
  | none => rfl
  | some s => by_cases hs : s = "" <;> simp [check_hash, hs]

lemma check_riddle_of_no_verify (d : RiddleDir) (hd : d.verifyFile = none) :
    check_riddle d = false := by
  have hg : get_hash d = none := by simp [get_hash, hd]
  rw [check_riddle, hg]
  exact check_hash_none_hash _

lemma check_riddle_of_no_solution (d : RiddleDir) (hd : d.solutionFile = none) :
    check_riddle d = false := by
  have hs : get_solution d = none := by simp [get_solution, hd]
  rw [check_riddle, hs, check_hash_none_sol]

/-! ### Claim theorems -/

/-- Claim C1 counterexample: the candidate consisting of a single space is
whitespace-only, so the claim demands check_hash be false on it for every
digest; but the code tests truthiness of the raw candidate before
normalizing, so the space matches the digest of the empty string. -/
theorem C1_counterexample :
    normalize " " = "" ∧ check_hash (some (sha1_hex "")) (some " ") = true := by
  exact ⟨rfl, by decide⟩

/-- Claim C1 (amended): check_hash digest d candidate c is true iff c is
non-empty BEFORE normalization and the SHA-1 hex digest of the UTF-8
encoding of the trimmed, lowercased c equals d under case-sensitive
comparison; a whitespace-only candidate is hashed as the empty string. -/
theorem C1_check_hash_iff (d c : String) :
    check_hash (some d) (some c) = true ↔ (c ≠ "" ∧ sha1_hex (normalize c) = d) := by
  by_cases h : c = "" <;> simp [check_hash, h]

/-- Claim C3 counterexample: the round-trip equation fails at the empty
string, where the claim demands check_hash(sha1(normalize("")), "") be
true but the code returns false on the falsy empty candidate. -/
theorem C3_counterexample :
    check_hash (some (sha1_hex (normalize ""))) (some "") = false := rfl

/-- Claim C3 (amended): for every non-empty string s,
check_hash(sha1(normalize(s)), s) is true; and whenever the digests of the
normalized forms of s1 and s2 differ, check_hash(sha1(normalize(s1)), s2)
is false. -/
theorem C3_digest_determinism :
    (∀ s : String, s ≠ "" → check_hash (some (sha1_hex (normalize s))) (some s) = true) ∧
    (∀ s1 s2 : String, sha1_hex (normalize s1) ≠ sha1_hex (normalize s2) →
      check_hash (some (sha1_hex (normalize s1))) (some s2) = false) := by
  constructor
  · intro s hs
    simp [check_hash, hs]
  · intro s1 s2 h
    by_cases h2 : s2 = "" <;> simp [check_hash, h2]
    exact fun e => h e.symm

/-- Witness for C3 at concrete inputs. -/
theorem C3_witness :
    check_hash (some (sha1_hex (normalize "Inception"))) (some "Inception") = true ∧
    check_hash (some (sha1_hex (normalize "a"))) (some "b") = false :=
  ⟨C3_digest_determinism.1 "Inception" (by decide),
   C3_digest_determinism.2 "a" "b" (by decide)⟩

/-- Claim C9: checking is total at absent inputs: a None answer gives
false, a None digest gives false with any answer, and check_riddle is
false on a directory lacking the verification artifact or the answer
artifact, with no failure anywhere. -/
theorem C9_totality :
    (∀ h : Option String, check_hash h none = false) ∧
    (∀ s : Option String, check_hash none s = false) ∧
    (∀ d : RiddleDir, d.verifyFile = none → check_riddle d = false) ∧
    (∀ d : RiddleDir, d.solutionFile = none → check_riddle d = false) :=
  ⟨check_hash_none_sol, check_hash_none_hash,
   check_riddle_of_no_verify, check_riddle_of_no_solution⟩

/-- Witness for C9 at concrete inputs. -/
theorem C9_witness :
    check_hash (some "x") none = false ∧ check_hash none (some "y") = false ∧
    check_riddle ⟨none, some "z"⟩ = false ∧ check_riddle ⟨some "w", none⟩ = false :=
  ⟨C9_totality.1 (some "x"), C9_totality.2.1 (some "y"),
   C9_totality.2.2.1 ⟨none, some "z"⟩ rfl, C9_totality.2.2.2 ⟨some "w", none⟩ rfl⟩

/-! ### Resolver lemmas -/

lemma resolveStep_nil_pending (s : List (Int × String)) (c : String) :
    resolveStep ([], s) c = ([], s) := rfl

lemma resolve_nil_pending (cs : List String) (s : List (Int × String)) :
    resolve cs ([], s) = ([], s) := by
  induction cs with
  | nil => rfl
  | cons c cs ih => simp [resolve, List.foldl_cons, resolveStep_nil_pending]; exact ih

lemma dictSet_of_not_mem (l : List (Int × String)) (k : Int) (v : String)
    (hk : k ∉ l.map Prod.fst) : dictSet l k v = l ++ [(k, v)] := by
  rw [dictSet, if_neg]
  simp only [List.any_eq_true, decide_eq_true_eq]
  rintro ⟨p, hp, hpk⟩
  exact hk (hpk ▸ List.mem_map_of_mem Prod.fst hp)

/-- Claim C4: first-match-wins.  First part: a candidate matching two
pending entries with the same digest is recorded only for the first entry
in insertion order, and the scan then stops, leaving the second entry
pending.  Second part: with one pending entry, the recorded answer after
the full pass is exactly the first candidate in sequence order that
matches, pending becomes empty, and all later candidates (identical or
not) are no-ops. -/
theorem C4_first_match_wins :
    (∀ (r1 r2 : Int) (h : Option String) (s : List (Int × String)) (c : String),
      check_hash h (some c) = true →
      resolveStep ([(r1, h), (r2, h)], s) c = ([(r2, h)], dictSet s r1 c)) ∧
    (∀ (r : Int) (h : Option String) (s : List (Int × String)) (cs : List String),
      r ∉ s.map Prod.fst →
      resolve cs ([(r, h)], s) =
        match cs.find? (fun c => check_hash h (some c)) with
        | none => ([(r, h)], s)
        | some c => ([], s ++ [(r, c)])) := by
  constructor
  · intro r1 r2 h s c hc
    have h1 : List.find? (fun p => check_hash p.2 (some c)) [(r1, h), (r2, h)] =
        some (r1, h) := List.find?_cons_of_pos _ (by simpa using hc)
    simp only [resolveStep, h1]
    rw [List.eraseP_cons_of_pos (by simp)]
  · intro r h s cs hr
    induction cs with
    | nil => rfl
    | cons c cs ih =>
      by_cases hc : check_hash h (some c) = true
      · have h1 : List.find? (fun p => check_hash p.2 (some c)) [(r, h)] = some (r, h) :=
          List.find?_cons_of_pos _ (by simpa using hc)
        have hstep : resolveStep ([(r, h)], s) c = ([], s ++ [(r, c)]) := by
          simp only [resolveStep, h1]
          rw [List.eraseP_cons_of_pos (by simp), dictSet_of_not_mem _ _ _ hr]
        rw [resolve, List.foldl_cons, hstep]
        rw [show List.foldl resolveStep ([], s ++ [(r, c)]) cs =
              resolve cs ([], s ++ [(r, c)]) from rfl]
        rw [resolve_nil_pending, List.find?_cons_of_pos _ (by simpa using hc)]
      · have h1 : List.find? (fun p => check_hash p.2 (some c)) [(r, h)] = none := by
          rw [List.find?_cons_of_neg _ (by simpa using hc), List.find?_nil]
        have hstep : resolveStep ([(r, h)], s) c = ([(r, h)], s) := by
          simp only [resolveStep, h1]
        rw [resolve, List.foldl_cons, hstep]
        rw [show List.foldl resolveStep ([(r, h)], s) cs = resolve cs ([(r, h)], s) from rfl]
        rw [ih, List.find?_cons_of_neg _ (by simpa using hc)]

/-- Witness for C4 at concrete inputs: the candidate A (normalizing to a)
answers only the first of two pending entries both carrying the digest of
a; and among the candidates x, A, a, the answer recorded is A, the first
match in sequence order. -/
theorem C4_witness :
    resolveStep ([(0, some (sha1_hex "a")), (1, some (sha1_hex "a"))], []) "A" =
      ([(1, some (sha1_hex "a"))], [(0, "A")]) ∧
    resolve ["x", "A", "a"] ([(0, some (sha1_hex "a"))], []) = ([], [(0, "A")]) :=
  ⟨(C4_first_match_wins.1 0 1 (some (sha1_hex "a")) [] "A" (by decide)).trans (by decide),
   (C4_first_match_wins.2 0 (some (sha1_hex "a")) [] ["x", "A", "a"] (by decide)).trans
     (by decide)⟩

lemma length_dictSet (l : List (Int × String)) (k : Int) (v : String) :
    (dictSet l k v).length = if k ∈ l.map Prod.fst then l.length else l.length + 1 := by
  by_cases hk : k ∈ l.map Prod.fst
  · rw [dictSet, if_pos, if_pos hk, List.length_map]
    obtain ⟨p, hp, hpk⟩ := List.mem_map.mp hk
    simp only [List.any_eq_true, decide_eq_true_eq]
    exact ⟨p, hp, hpk⟩
  · rw [dictSet_of_not_mem _ _ _ hk, if_neg hk, List.length_append, List.length_singleton]

lemma resolveStep_pending_le
    (st : List (Int × Option String) × List (Int × String)) (c : String) :
    (resolveStep st c).1.length ≤ st.1.length := by
  simp only [resolveStep]
  cases hfind : st.1.find? (fun p => check_hash p.2 (some c)) with
  | none => exact Nat.le_refl _
  | some p => exact List.length_eraseP_le _

lemma resolveStep_solved_ge
    (st : List (Int × Option String) × List (Int × String)) (c : String) :
    st.2.length ≤ (resolveStep st c).2.length := by
  simp only [resolveStep]
  cases hfind : st.1.find? (fun p => check_hash p.2 (some c)) with
  | none => exact Nat.le_refl _
  | some p =>
    show st.2.length ≤ (dictSet st.2 p.1 c).length
    rw [length_dictSet]
    split
    · exact Nat.le_refl _
    · exact Nat.le_succ _

lemma resolve_pending_le (cs : List String)
    (st : List (Int × Option String) × List (Int × String)) :
    (resolve cs st).1.length ≤ st.1.length := by
  induction cs generalizing st with
  | nil => exact Nat.le_refl _
  | cons c cs ih =>
    exact Nat.le_trans (ih (resolveStep st c)) (resolveStep_pending_le st c)

lemma resolve_solved_ge (cs : List String)
    (st : List (Int × Option String) × List (Int × String)) :
    st.2.length ≤ (resolve cs st).2.length := by
  induction cs generalizing st with
  | nil => exact Nat.le_refl _
  | cons c cs ih =>
    exact Nat.le_trans (resolveStep_solved_ge st c) (ih (resolveStep st c))

lemma keys_eraseP_ne (l : List (Int × Option String)) (r : Int)
    (hnd : (l.map Prod.fst).Nodup) :
    ∀ k ∈ (l.eraseP (fun q => decide (q.1 = r))).map Prod.fst, k ≠ r := by
  induction l with
  | nil => simp
  | cons a t ih =>
    have hnd' : (t.map Prod.fst).Nodup := (List.nodup_cons.mp (by simpa using hnd)).2
    by_cases ha : a.1 = r
    · rw [List.eraseP_cons_of_pos (by simp [ha])]
      intro k hk hkr
      subst hkr
      have hna : a.1 ∉ t.map Prod.fst := (List.nodup_cons.mp (by simpa using hnd)).1
      exact hna (ha ▸ hk)
    · rw [List.eraseP_cons_of_neg (by simp [ha])]
      intro k hk hkr
      rcases (by simpa using hk : k = a.1 ∨ k ∈ (t.eraseP (fun q => decide (q.1 = r))).map Prod.fst)
        with h1 | h1
      · exact ha (h1 ▸ hkr)
      · exact ih hnd' k h1 hkr

lemma resolveStep_conserve
    (st : List (Int × Option String) × List (Int × String)) (c : String)
    (hnd : (st.1.map Prod.fst).Nodup)
    (hdisj : ∀ k ∈ st.1.map Prod.fst, k ∉ st.2.map Prod.fst) :
    (resolveStep st c).1.length + (resolveStep st c).2.length = st.1.length + st.2.length ∧
    ((resolveStep st c).1.map Prod.fst).Nodup ∧
    (∀ k ∈ (resolveStep st c).1.map Prod.fst, k ∉ (resolveStep st c).2.map Prod.fst) := by
  simp only [resolveStep]
  cases hfind : st.1.find? (fun p => check_hash p.2 (some c)) with
  | none => exact ⟨rfl, hnd, hdisj⟩
  | some p =>
    have hpmem : p ∈ st.1 := List.mem_of_find?_eq_some hfind
    have hkey : p.1 ∈ st.1.map Prod.fst := List.mem_map_of_mem _ hpmem
    have hknot : p.1 ∉ st.2.map Prod.fst := hdisj _ hkey
    have hlen : (st.1.eraseP (fun q => decide (q.1 = p.1))).length = st.1.length - 1 :=
      List.length_eraseP_of_mem hpmem (by simp)
    have hpos : 1 ≤ st.1.length := List.length_pos.mpr (List.ne_nil_of_mem hpmem)
    have hset : dictSet st.2 p.1 c = st.2 ++ [(p.1, c)] := dictSet_of_not_mem _ _ _ hknot
    have hsub : List.Sublist (st.1.eraseP (fun q => decide (q.1 = p.1))) st.1 :=
      List.eraseP_sublist _
    refine ⟨?_, ?_, ?_⟩
    · show (st.1.eraseP _).length + (dictSet st.2 p.1 c).length = _
      rw [hlen, hset, List.length_append, List.length_singleton]
      omega
    · exact hnd.sublist (hsub.map Prod.fst)
    · show ∀ k ∈ List.map Prod.fst (st.1.eraseP (fun q => decide (q.1 = p.1))),
          k ∉ List.map Prod.fst (dictSet st.2 p.1 c)
      intro k hk
      rw [hset]
      have hkin : k ∈ st.1.map Prod.fst :=
        (hsub.map Prod.fst).mem hk
      have hkr : k ≠ p.1 := keys_eraseP_ne st.1 p.1 hnd k hk
      simp only [List.map_append, List.mem_append]
      rintro (h2 | h2)
      · exact hdisj _ hkin h2
      · simp at h2
        exact hkr h2

lemma resolve_conserve (cs : List String)
    (st : List (Int × Option String) × List (Int × String))
    (hnd : (st.1.map Prod.fst).Nodup)
    (hdisj : ∀ k ∈ st.1.map Prod.fst, k ∉ st.2.map Prod.fst) :
    (resolve cs st).1.length + (resolve cs st).2.length = st.1.length + st.2.length := by
  induction cs generalizing st with
  | nil => rfl
  | cons c cs ih =>
    obtain ⟨h1, h2, h3⟩ := resolveStep_conserve st c hnd hdisj
    exact (ih (resolveStep st c) h2 h3).trans h1

/-- Claim C5: resolver conservation: per candidate step and over a whole
pass, the pending map never grows and the solved map never shrinks; and
over the full find_solutions pass, when the pending keys are distinct and
disjoint from the solved keys (as the registry produces them), the sum of
the two sizes is exactly preserved. -/
theorem C5_resolver_conservation :
    (∀ (st : List (Int × Option String) × List (Int × String)) (c : String),
      (resolveStep st c).1.length ≤ st.1.length ∧
      st.2.length ≤ (resolveStep st c).2.length) ∧
    (∀ (cs : List String) (st : List (Int × Option String) × List (Int × String)),
      (resolve cs st).1.length ≤ st.1.length ∧
      st.2.length ≤ (resolve cs st).2.length) ∧
    (∀ (lines : List String) (h : List (Int × Option String)) (s : List (Int × String)),
      (h.map Prod.fst).Nodup → (∀ k ∈ h.map Prod.fst, k ∉ s.map Prod.fst) →
      (find_solutions lines h s).1.length + (find_solutions lines h s).2.length =
        h.length + s.length) :=
  ⟨fun st c => ⟨resolveStep_pending_le st c, resolveStep_solved_ge st c⟩,
   fun cs st => ⟨resolve_pending_le cs st, resolve_solved_ge cs st⟩,
   fun _lines h s hnd hdisj => resolve_conserve _ (h, s) hnd hdisj⟩

/-- Witness for C5 at concrete inputs: one pending digest, a dataset whose
one candidate row solves it, and the size sum 1 + 0 preserved. -/
theorem C5_witness :
    (find_solutions ["h", "a\tb\tc\tA\te", "z"] [(0, some (sha1_hex "a"))] []).1.length +
      (find_solutions ["h", "a\tb\tc\tA\te", "z"] [(0, some (sha1_hex "a"))] []).2.length = 1 :=
  (C5_resolver_conservation.2.2 ["h", "a\tb\tc\tA\te", "z"] [(0, some (sha1_hex "a"))] []
    (by decide) (by decide)).trans rfl

lemma range'_map_getD (k : Nat) : ∀ (i : Nat) (l : List String), i + k ≤ l.length →
    (List.range' i k).map (fun j => l.getD j "") = (l.drop i).take k := by
  induction k with
  | zero => intro i l _; simp
  | succ k ih =>
    intro i l h
    have hi : i < l.length := by omega
    rw [List.range'_succ, List.map_cons, List.drop_eq_getElem_cons hi, List.take_succ_cons]
    congr 1
    · simp [List.getElem?_eq_getElem hi]
    · exact ih (i + 1) l (by omega)

/-- Claim C7: find_solutions consumes exactly the title fields (column
title_index = 3) of the records with index 1 through totalRecords - 2,
skipping the header record and the final record, each once and in order:
the pass is the resolver fold over the Candidate Source sequence. -/
theorem C7_candidate_framing (lines : List String) (h : List (Int × Option String))
    (s : List (Int × String))
    (_hwf : ∀ l ∈ (lines.drop 1).dropLast, 4 ≤ (pySplitTab l).length) :
    find_solutions lines h s = resolve (produceCandidates lines title_index) (h, s) := by
  rw [find_solutions, produceCandidates]
  congr 1
  rcases Nat.lt_or_ge lines.length 2 with h2 | h2
  · have hz : lines.length - 2 = 0 := by omega
    have he : (lines.drop 1).dropLast = [] := by
      apply List.eq_nil_of_length_eq_zero
      rw [List.length_dropLast, List.length_drop]
      omega
    rw [hz, he]
    rfl
  · have hslice : (List.range' 1 (lines.length - 2)).map (fun j => lines.getD j "") =
        (lines.drop 1).take (lines.length - 2) := range'_map_getD _ 1 lines (by omega)
    have hdl : (lines.drop 1).dropLast = (lines.drop 1).take (lines.length - 2) := by
      rw [List.dropLast_eq_take, List.length_drop]
      congr 1
    rw [hdl, ← hslice, List.map_map]
    rfl

/-- Witness for C7 at a concrete three-line dataset. -/
theorem C7_witness :
    find_solutions ["h", "a\tb\tc\tT\te", "z"] [] [] =
      resolve (produceCandidates ["h", "a\tb\tc\tT\te", "z"] title_index) ([], []) :=
  C7_candidate_framing ["h", "a\tb\tc\tT\te", "z"] [] [] (by decide)

/-- Claim C8: when the registry scan yields no pending digests, the solve
pipeline prints the message and runs the verification pass, and neither
the dataset fetch nor the brute-force nor the persist step appears in the
run. -/
theorem C8_no_pending_skips_fetch (entries : List Entry)
    (h : (get_hashes_and_solutions entries).1 = []) :
    execute_riddle_solver entries =
      [Action.scanRegistry, Action.printNoHashes, Action.checkSolutions] ∧
    Action.downloadData ∉ execute_riddle_solver entries ∧
    Action.bruteForce ∉ execute_riddle_solver entries ∧
    Action.persistSolutions ∉ execute_riddle_solver entries := by
  have he : execute_riddle_solver entries =
      [Action.scanRegistry, Action.printNoHashes, Action.checkSolutions] := by
    rw [execute_riddle_solver, if_pos (by rw [h]; rfl)]
  refine ⟨he, ?_, ?_, ?_⟩ <;> rw [he] <;> decide

/-- Witness for C8: a registry holding one already-solved riddle (its
verify.py digest is the digest of its recorded answer), so nothing is
pending. -/
theorem C8_witness :
    execute_riddle_solver
        [Entry.dir 7 ⟨some (String.mk (patChars ++ (sha1_hex "abc").data ++ [Char.ofNat 39])),
          some "abc"⟩] =
      [Action.scanRegistry, Action.printNoHashes, Action.checkSolutions] :=
  (C8_no_pending_skips_fetch
    [Entry.dir 7 ⟨some (String.mk (patChars ++ (sha1_hex "abc").data ++ [Char.ofNat 39])),
      some "abc"⟩] (by decide)).1

/-! ### Registry scan characterization -/

/-- The pending entries a registry scan contributes, in listing order. -/
def hPart (entries : List Entry) : List (Int × Option String) :=
  entries.filterMap (fun e =>
    match e with
    | Entry.file _ => none
    | Entry.dir n d => if check_riddle d then none else some (n, get_hash d))

/-- The solved entries a registry scan contributes, in listing order. -/
def sPart (entries : List Entry) : List (Int × String) :=
  entries.filterMap (fun e =>
    match e with
    | Entry.file _ => none
    | Entry.dir n d => if check_riddle d then some (n, (get_solution d).getD "") else none)

/-- The directory names seen by the scan. -/
def dirNames (entries : List Entry) : List Int :=
  entries.filterMap (fun e =>
    match e with
    | Entry.file _ => none
    | Entry.dir n _ => some n)

lemma ghs_go (entries : List Entry) :
    ∀ acc, entries.foldl ghsStep acc = (acc.1 ++ hPart entries, acc.2 ++ sPart entries) := by
  induction entries with
  | nil => intro acc; simp [hPart, sPart]
  | cons e rest ih =>
    intro acc
    rw [List.foldl_cons, ih]
    cases e with
    | file n => simp [ghsStep, hPart, sPart]
    | dir n d =>
      by_cases hc : check_riddle d = true
      · simp [ghsStep, hPart, sPart, hc, List.filterMap_cons]
      · simp [ghsStep, hPart, sPart, hc, List.filterMap_cons]

lemma ghs_eq (entries : List Entry) :
    get_hashes_and_solutions entries = (hPart entries, sPart entries) := by
  rw [get_hashes_and_solutions, ghs_go]
  simp

lemma name_mem_dirNames (entries : List Entry) (n : Int) (d : RiddleDir)
    (h : Entry.dir n d ∈ entries) : n ∈ dirNames entries := by
  induction entries with
  | nil => cases h
  | cons e rest ih =>
    rcases List.mem_cons.mp h with h1 | h1
    · subst h1; simp [dirNames, List.filterMap_cons]
    · cases e with
      | file m => simpa [dirNames, List.filterMap_cons] using ih h1
      | dir m dm =>
        simp only [dirNames, List.filterMap_cons]
        exact List.mem_cons_of_mem _ (ih h1)

lemma dir_content_unique (entries : List Entry) (hnd : (dirNames entries).Nodup)
    (n : Int) (d d' : RiddleDir) (h1 : Entry.dir n d ∈ entries)
    (h2 : Entry.dir n d' ∈ entries) : d = d' := by
  induction entries with
  | nil => cases h1
  | cons e rest ih =>
    cases e with
    | file m =>
      have hnd' : (dirNames rest).Nodup := by simpa [dirNames, List.filterMap_cons] using hnd
      have h1' : Entry.dir n d ∈ rest := by
        rcases List.mem_cons.mp h1 with h | h
        · simp at h
        · exact h
      have h2' : Entry.dir n d' ∈ rest := by
        rcases List.mem_cons.mp h2 with h | h
        · simp at h
        · exact h
      exact ih hnd' h1' h2'
    | dir m dm =>
      have hnd2 : (m :: dirNames rest).Nodup := by
        simpa [dirNames, List.filterMap_cons] using hnd
      have hmnot : m ∉ dirNames rest := (List.nodup_cons.mp hnd2).1
      have hnd' : (dirNames rest).Nodup := (List.nodup_cons.mp hnd2).2
      rcases List.mem_cons.mp h1 with ha | ha <;> rcases List.mem_cons.mp h2 with hb | hb
      · injection ha with hn0 hd0
        injection hb with hn1 hd1
        exact hd0.trans hd1.symm
      · injection ha with hn0 hd0
        exact absurd (hn0 ▸ name_mem_dirNames rest n d' hb) hmnot
      · injection hb with hn1 hd1
        exact absurd (hn1 ▸ name_mem_dirNames rest n d ha) hmnot
      · exact ih hnd' ha hb

lemma mem_hPart_keys_iff (entries : List Entry) (name : Int) :
    name ∈ (hPart entries).map Prod.fst ↔
      ∃ d, Entry.dir name d ∈ entries ∧ check_riddle d = false := by
  induction entries with
  | nil => simp [hPart]
  | cons e rest ih =>
    cases e with
    | file m =>
      rw [show hPart (Entry.file m :: rest) = hPart rest from by
        simp [hPart, List.filterMap_cons]]
      rw [ih]
      constructor
      · rintro ⟨d, hd, hc⟩
        exact ⟨d, List.mem_cons_of_mem _ hd, hc⟩
      · rintro ⟨d, hd, hc⟩
        rcases List.mem_cons.mp hd with h | h
        · simp at h
        · exact ⟨d, h, hc⟩
    | dir m dm =>
      by_cases hc : check_riddle dm = true
      · rw [show hPart (Entry.dir m dm :: rest) = hPart rest from by
          simp [hPart, List.filterMap_cons, hc]]
        rw [ih]
        constructor
        · rintro ⟨d, hd, hcd⟩
          exact ⟨d, List.mem_cons_of_mem _ hd, hcd⟩
        · rintro ⟨d, hd, hcd⟩
          rcases List.mem_cons.mp hd with h | h
          · obtain ⟨-, rfl⟩ : name = m ∧ d = dm := by simpa using h
            rw [hc] at hcd
            cases hcd
          · exact ⟨d, h, hcd⟩
      · have hc' : check_riddle dm = false := by simpa using hc
        rw [show hPart (Entry.dir m dm :: rest) = (m, get_hash dm) :: hPart rest from by
          simp [hPart, List.filterMap_cons, hc']]
        simp only [List.map_cons, List.mem_cons]
        rw [ih]
        constructor
        · rintro (rfl | ⟨d, hd, hcd⟩)
          · exact ⟨dm, Or.inl rfl, hc'⟩
          · exact ⟨d, Or.inr hd, hcd⟩
        · rintro ⟨d, hd, hcd⟩
          rcases hd with h | h
          · left
            injection h
          · right
            exact ⟨d, h, hcd⟩

lemma mem_sPart_keys_iff (entries : List Entry) (name : Int) :
    name ∈ (sPart entries).map Prod.fst ↔
      ∃ d, Entry.dir name d ∈ entries ∧ check_riddle d = true := by
  induction entries with
  | nil => simp [sPart]
  | cons e rest ih =>
    cases e with
    | file m =>
      rw [show sPart (Entry.file m :: rest) = sPart rest from by
        simp [sPart, List.filterMap_cons]]
      rw [ih]
      constructor
      · rintro ⟨d, hd, hc⟩
        exact ⟨d, List.mem_cons_of_mem _ hd, hc⟩
      · rintro ⟨d, hd, hc⟩
        rcases List.mem_cons.mp hd with h | h
        · simp at h
        · exact ⟨d, h, hc⟩
    | dir m dm =>
      by_cases hc : check_riddle dm = true
      · rw [show sPart (Entry.dir m dm :: rest) =
            (m, (get_solution dm).getD "") :: sPart rest from by
          simp [sPart, List.filterMap_cons, hc]]
        simp only [List.map_cons, List.mem_cons]
        rw [ih]
        constructor
        · rintro (rfl | ⟨d, hd, hcd⟩)
          · exact ⟨dm, Or.inl rfl, hc⟩
          · exact ⟨d, Or.inr hd, hcd⟩
        · rintro ⟨d, hd, hcd⟩
          rcases hd with h | h
          · left
            injection h
          · right
            exact ⟨d, h, hcd⟩
      · have hc' : check_riddle dm = false := by simpa using hc
        rw [show sPart (Entry.dir m dm :: rest) = sPart rest from by
          simp [sPart, List.filterMap_cons, hc']]
        rw [ih]
        constructor
        · rintro ⟨d, hd, hcd⟩
          exact ⟨d, List.mem_cons_of_mem _ hd, hcd⟩
        · rintro ⟨d, hd, hcd⟩
          rcases List.mem_cons.mp hd with h | h
          · obtain ⟨-, rfl⟩ : name = m ∧ d = dm := by simpa using h
            rw [hc'] at hcd
            cases hcd
          · exact ⟨d, h, hcd⟩

/-- Claim C2 counterexample: a riddle directory with no digest does not
appear in neither map, as the claim demands: check_riddle fails on it, so
the scan files it under the pending hashes with a None digest value. -/
theorem C2_counterexample :
    get_hash ⟨none, none⟩ = none ∧
    get_hashes_and_solutions [Entry.dir 0 ⟨none, none⟩] = ([(0, none)], []) := by
  exact ⟨rfl, rfl⟩

/-- Claim C2 (amended): after the registry scan over distinct directory
names, a riddle directory with a digest appears in exactly one of the
pending map and the solved map; a riddle directory without a digest also
appears in exactly one, namely the pending map (with a None digest value),
not in neither. -/
theorem C2_registry_partition (entries : List Entry) (hnd : (dirNames entries).Nodup)
    (name : Int) (d : RiddleDir) (hmem : Entry.dir name d ∈ entries) :
    ((get_hash d).isSome = true →
      (name ∈ (get_hashes_and_solutions entries).1.map Prod.fst ↔
        name ∉ (get_hashes_and_solutions entries).2.map Prod.fst)) ∧
    (get_hash d = none →
      name ∈ (get_hashes_and_solutions entries).1.map Prod.fst ∧
        name ∉ (get_hashes_and_solutions entries).2.map Prod.fst) := by
  rw [ghs_eq]
  dsimp only
  have hh : name ∈ (hPart entries).map Prod.fst ↔ check_riddle d = false := by
    rw [mem_hPart_keys_iff]
    constructor
    · rintro ⟨d', hd', hc⟩
      rwa [dir_content_unique entries hnd name d' d hd' hmem] at hc
    · intro hc
      exact ⟨d, hmem, hc⟩
  have hs : name ∈ (sPart entries).map Prod.fst ↔ check_riddle d = true := by
    rw [mem_sPart_keys_iff]
    constructor
    · rintro ⟨d', hd', hc⟩
      rwa [dir_content_unique entries hnd name d' d hd' hmem] at hc
    · intro hc
      exact ⟨d, hmem, hc⟩
  constructor
  · intro _
    rw [hh, hs]
    simp
  · intro hg
    have hcf : check_riddle d = false := by
      rw [check_riddle, hg]
      exact check_hash_none_hash _
    refine ⟨hh.mpr hcf, ?_⟩
    rw [hs, hcf]
    simp

/-- Witness for C2: a registry listing with a plain file, an unsolved
riddle carrying a digest, and a digestless riddle; instantiated at the
digestless one. -/
theorem C2_witness :
    ((get_hash (⟨none, some "guess"⟩ : RiddleDir)).isSome = true →
      ((0 : Int) ∈ (get_hashes_and_solutions
          [Entry.file 5, Entry.dir 0 ⟨none, some "guess"⟩,
           Entry.dir 1 ⟨some (String.mk (patChars ++ "abcd".data ++ [Char.ofNat 39])),
             none⟩]).1.map Prod.fst ↔
        (0 : Int) ∉ (get_hashes_and_solutions
          [Entry.file 5, Entry.dir 0 ⟨none, some "guess"⟩,
           Entry.dir 1 ⟨some (String.mk (patChars ++ "abcd".data ++ [Char.ofNat 39])),
             none⟩]).2.map Prod.fst)) ∧
    (get_hash (⟨none, some "guess"⟩ : RiddleDir) = none →
      (0 : Int) ∈ (get_hashes_and_solutions
          [Entry.file 5, Entry.dir 0 ⟨none, some "guess"⟩,
           Entry.dir 1 ⟨some (String.mk (patChars ++ "abcd".data ++ [Char.ofNat 39])),
             none⟩]).1.map Prod.fst ∧
        (0 : Int) ∉ (get_hashes_and_solutions
          [Entry.file 5, Entry.dir 0 ⟨none, some "guess"⟩,
           Entry.dir 1 ⟨some (String.mk (patChars ++ "abcd".data ++ [Char.ofNat 39])),
             none⟩]).2.map Prod.fst) :=
  C2_registry_partition
    [Entry.file 5, Entry.dir 0 ⟨none, some "guess"⟩,
     Entry.dir 1 ⟨some (String.mk (patChars ++ "abcd".data ++ [Char.ofNat 39])), none⟩]
    (by decide) 0 ⟨none, some "guess"⟩ (by decide)

/-! ### Digest extraction characterization -/

/-- Whether the regex literal occurs anywhere in the text. -/
def containsPat : List Char → Bool
  | [] => false
  | c :: rest => listStartsWith patChars (c :: rest) || containsPat rest

lemma reSearchHash_of_not_contains (l : List Char) (h : containsPat l = false) :
    reSearchHash l = none := by
  induction l with
  | nil => rfl
  | cons c rest ih =>
    rw [containsPat] at h
    rcases Bool.or_eq_false_iff.mp h with ⟨h1, h2⟩
    rw [reSearchHash, if_neg (by simp [h1])]
    exact ih h2

lemma listStartsWith_append (p rest : List Char) : listStartsWith p (p ++ rest) = true := by
  induction p with
  | nil => rfl
  | cons q qs ih => simp [listStartsWith, ih]

lemma takeWhile_append_all (q : Char → Bool) (g l : List Char)
    (hg : ∀ c ∈ g, q c = true) : (g ++ l).takeWhile q = g ++ l.takeWhile q := by
  induction g with
  | nil => rfl
  | cons c t ih =>
    rw [List.cons_append, List.takeWhile_cons, hg c (List.mem_cons_self _ _)]
    rw [List.cons_append]
    exact congrArg (c :: ·) (ih fun x hx => hg x (List.mem_cons_of_mem _ hx))

lemma lastIdxQuote_append_qt (g : List Char) :
    lastIdxQuote (g ++ [Char.ofNat 39]) = some g.length := by
  induction g with
  | nil => rfl
  | cons c t ih => rw [List.cons_append, lastIdxQuote, ih, List.length_cons]

lemma regexGroup_of_shape (g rest : List Char) (hne : g ≠ [])
    (hg : ∀ c ∈ g, c ≠ Char.ofNat 10)
    (hrest : rest.takeWhile (fun c => decide (c ≠ Char.ofNat 10)) = []) :
    regexGroup (g ++ [Char.ofNat 39] ++ rest) = some g := by
  have hline : (g ++ [Char.ofNat 39] ++ rest).takeWhile
      (fun c => decide (c ≠ Char.ofNat 10)) = g ++ [Char.ofNat 39] := by
    rw [List.append_assoc]
    rw [takeWhile_append_all _ g _ (fun c hc => by simp [hg c hc])]
    rw [takeWhile_append_all _ [Char.ofNat 39] _ (by intro c hc; simp at hc; simp [hc])]
    rw [hrest, List.append_nil]
  rw [regexGroup]
  simp only [hline, lastIdxQuote_append_qt]
  rw [if_pos (by cases g with | nil => exact absurd rfl hne | cons a t => simp)]
  rw [List.take_left]

lemma reSearchHash_cons (c : Char) (rest : List Char) :
    reSearchHash (c :: rest) =
      if listStartsWith patChars (c :: rest) then
        match regexGroup ((c :: rest).drop patChars.length) with
        | some g => some g
        | none => reSearchHash rest
      else reSearchHash rest := rfl

lemma reSearchHash_append_start (x g : List Char) (hx : regexGroup x = some g) :
    reSearchHash (patChars ++ x) = some g := by
  have h1 : listStartsWith patChars (patChars ++ x) = true := listStartsWith_append _ _
  have h2 : (patChars ++ x).drop patChars.length = x := List.drop_left _ _
  obtain ⟨c, cs, hpat⟩ : ∃ c cs, patChars = c :: cs := by
    cases hq : patChars with
    | nil => exact absurd hq (by decide)
    | cons a b => exact ⟨a, b, rfl⟩
  rw [show patChars ++ x = c :: (cs ++ x) from by rw [hpat, List.cons_append]]
  rw [reSearchHash_cons]
  rw [show c :: (cs ++ x) = patChars ++ x from by rw [hpat, List.cons_append]]
  rw [if_pos h1, h2, hx]

/-- Claim C6 counterexample: a verification artifact whose quoted text is
XYZ, which is not 40 lowercase hex characters, still yields a digest: the
extraction regex captures any non-empty quoted text. -/
theorem C6_counterexample :
    get_hash ⟨some (String.mk (patChars ++ "XYZ".data ++ [Char.ofNat 39])), none⟩ =
      some "XYZ" ∧ "XYZ".length ≠ 40 := ⟨rfl, by decide⟩

/-- Claim C6 (amended): get_hash returns None when the verification
artifact is absent or never contains the literal assertion text, and on an
artifact holding the assertion literal followed by a non-empty quoted text
on one line it returns exactly that quoted text, whatever its characters
or length (not only 40 lowercase hex digits). -/
theorem C6_digest_extraction :
    (∀ sf : Option String, get_hash ⟨none, sf⟩ = none) ∧
    (∀ (content : String) (sf : Option String), containsPat content.data = false →
      get_hash ⟨some content, sf⟩ = none) ∧
    (∀ (g rest : List Char) (sf : Option String), g ≠ [] →
      (∀ c ∈ g, c ≠ Char.ofNat 10) →
      rest.takeWhile (fun c => decide (c ≠ Char.ofNat 10)) = [] →
      get_hash ⟨some (String.mk (patChars ++ g ++ [Char.ofNat 39] ++ rest)), sf⟩ =
        some (String.mk g)) := by
  refine ⟨fun sf => rfl, fun content sf h => ?_, fun g rest sf hne hg hrest => ?_⟩
  · show (reSearchHash content.data).map (fun g => String.mk g) = none
    rw [reSearchHash_of_not_contains _ h]
    rfl
  · have hsearch : reSearchHash (patChars ++ g ++ [Char.ofNat 39] ++ rest) = some g := by
      have h0 : patChars ++ g ++ [Char.ofNat 39] ++ rest =
          patChars ++ (g ++ [Char.ofNat 39] ++ rest) := by
        simp [List.append_assoc]
      rw [h0]
      exact reSearchHash_append_start _ g (regexGroup_of_shape g rest hne hg hrest)
    show (reSearchHash (String.mk (patChars ++ g ++ [Char.ofNat 39] ++ rest)).data).map
        (fun g => String.mk g) = some (String.mk g)
    rw [show (String.mk (patChars ++ g ++ [Char.ofNat 39] ++ rest)).data =
      patChars ++ g ++ [Char.ofNat 39] ++ rest from rfl, hsearch]
    rfl

/-- Witness for C6 at concrete artifacts. -/
theorem C6_witness :
    get_hash ⟨none, some "q"⟩ = none ∧
    get_hash ⟨some "hello", some "s"⟩ = none ∧
    get_hash ⟨some (String.mk (patChars ++ "abcd".data ++ [Char.ofNat 39] ++ [])), none⟩ =
      some (String.mk "abcd".data) :=
  ⟨C6_digest_extraction.1 (some "q"),
   C6_digest_extraction.2.1 "hello" (some "s") (by decide),
   C6_digest_extraction.2.2 "abcd".data [] none (by decide) (by decide) rfl⟩

/-! ### Persist and read back -/

lemma dropWhile_idem (p : Char → Bool) (l : List Char) :
    (l.dropWhile p).dropWhile p = l.dropWhile p := by
  induction l with
  | nil => rfl
  | cons c t ih =>
    by_cases hc : p c = true
    · rw [List.dropWhile_cons, if_pos hc]
      exact ih
    · rw [List.dropWhile_cons, if_neg hc, List.dropWhile_cons, if_neg hc]

lemma dropWhile_head_false (p : Char → Bool) (l : List Char) (c : Char) (t : List Char)
    (h : l.dropWhile p = c :: t) : p c = false := by
  induction l with
  | nil => cases h
  | cons a l ih =>
    by_cases ha : p a = true
    · rw [List.dropWhile_cons, if_pos ha] at h
      exact ih h
    · rw [List.dropWhile_cons, if_neg ha] at h
      cases h
      simpa using ha

lemma dropWhile_suffix_decomp (p : Char → Bool) (l : List Char) :
    ∃ u, l = u ++ l.dropWhile p := by
  induction l with
  | nil => exact ⟨[], rfl⟩
  | cons c t ih =>
    by_cases hc : p c = true
    · obtain ⟨u, hu⟩ := ih
      rw [List.dropWhile_cons, if_pos hc]
      exact ⟨c :: u, by rw [List.cons_append, ← hu]⟩
    · rw [List.dropWhile_cons, if_neg hc]
      exact ⟨[], rfl⟩

lemma stripChars_idem (l : List Char) : stripChars (stripChars l) = stripChars l := by
  cases hr : stripChars l with
  | nil => rfl
  | cons c t =>
    have hA : stripChars l =
        ((l.dropWhile isPySpace).reverse.dropWhile isPySpace).reverse := rfl
    -- the result is a prefix of the front-stripped list, so its head is not a space
    obtain ⟨u, hu⟩ := dropWhile_suffix_decomp isPySpace (l.dropWhile isPySpace).reverse
    have hpref : l.dropWhile isPySpace = stripChars l ++ u.reverse := by
      have := congrArg List.reverse hu
      rwa [List.reverse_reverse, List.reverse_append, ← hA] at this
    have hhead : isPySpace c = false := by
      apply dropWhile_head_false isPySpace l c (t ++ u.reverse)
      rw [hpref, hr, List.cons_append]
    have hstep1 : (stripChars l).dropWhile isPySpace = stripChars l := by
      rw [hr, List.dropWhile_cons, if_neg (by simp [hhead])]
    rw [← hr]
    show ((((stripChars l).dropWhile isPySpace).reverse).dropWhile isPySpace).reverse =
      stripChars l
    rw [hstep1, hA, List.reverse_reverse, dropWhile_idem, ← hA]

lemma pyStrip_idem (s : String) : pyStrip (pyStrip s) = pyStrip s :=
  congrArg String.mk (stripChars_idem s.data)

lemma fsGet_set_self (fs : List (Int × RiddleDir)) (k : Int) (c : String) :
    fsGet (fsSetSolution fs k c) k =
      (fsGet fs k).map (fun d => ⟨d.verifyFile, some c⟩) := by
  induction fs with
  | nil => rfl
  | cons p t ih =>
    by_cases hp : p.1 = k
    · rw [fsSetSolution, List.map_cons, if_pos hp, fsGet,
        List.find?_cons_of_pos _ (by simpa using hp), fsGet,
        List.find?_cons_of_pos _ (by simpa using hp)]
      rfl
    · rw [fsSetSolution, List.map_cons, if_neg hp, fsGet,
        List.find?_cons_of_neg _ (by simpa using hp), fsGet,
        List.find?_cons_of_neg _ (by simpa using hp)]
      exact ih

lemma fsGet_set_other (fs : List (Int × RiddleDir)) (k k' : Int) (c : String)
    (hne : k' ≠ k) : fsGet (fsSetSolution fs k c) k' = fsGet fs k' := by
  induction fs with
  | nil => rfl
  | cons p t ih =>
    by_cases hp : p.1 = k
    · have hne' : ¬(p.1 = k') := fun e => hne (e ▸ hp ▸ rfl)
      rw [fsSetSolution, List.map_cons, if_pos hp, fsGet,
        List.find?_cons_of_neg _ (by simpa using hne'), fsGet,
        List.find?_cons_of_neg _ (by simpa using hne')]
      exact ih
    · by_cases hp' : p.1 = k'
      · rw [fsSetSolution, List.map_cons, if_neg hp, fsGet,
          List.find?_cons_of_pos _ (by simpa using hp'), fsGet,
          List.find?_cons_of_pos _ (by simpa using hp')]
      · rw [fsSetSolution, List.map_cons, if_neg hp, fsGet,
          List.find?_cons_of_neg _ (by simpa using hp'), fsGet,
          List.find?_cons_of_neg _ (by simpa using hp')]
        exact ih

lemma fsGet_set_isSome (fs : List (Int × RiddleDir)) (k k' : Int) (c : String) :
    (fsGet (fsSetSolution fs k c) k').isSome = (fsGet fs k').isSome := by
  by_cases h : k' = k
  · subst h
    rw [fsGet_set_self]
    cases fsGet fs k' <;> rfl
  · rw [fsGet_set_other fs k k' c h]

/-- Claim C10: persist/read round-trip: when the solved map has distinct
keys and every written riddle directory exists, write_solutions succeeds,
reading back any entry whose answer is non-empty after trimming yields
exactly the trimmed answer, and the artifacts of riddles outside the
solved map are untouched. -/
theorem C10_persist_roundtrip (fs : List (Int × RiddleDir))
    (solutions : List (Int × String))
    (hnd : (solutions.map Prod.fst).Nodup)
    (hex : ∀ p ∈ solutions, (fsGet fs p.1).isSome = true) :
    ∃ fs', write_solutions solutions fs = some fs' ∧
      (∀ p ∈ solutions, pyStrip p.2 ≠ "" → get_solution_at fs' p.1 = some (pyStrip p.2)) ∧
      (∀ k : Int, k ∉ solutions.map Prod.fst → fsGet fs' k = fsGet fs k) := by
  induction solutions generalizing fs with
  | nil => exact ⟨fs, rfl, by simp, fun k _ => rfl⟩
  | cons p rest ih =>
    obtain ⟨k, a⟩ := p
    have hk : (fsGet fs k).isSome = true := hex (k, a) (List.mem_cons_self _ _)
    rw [List.map_cons, List.nodup_cons] at hnd
    have hknotin : k ∉ rest.map Prod.fst := hnd.1
    have hnd' : (rest.map Prod.fst).Nodup := hnd.2
    have hex' : ∀ q ∈ rest, (fsGet (fsSetSolution fs k (pyStrip a)) q.1).isSome = true :=
      fun q hq => by
        rw [fsGet_set_isSome]
        exact hex q (List.mem_cons_of_mem _ hq)
    obtain ⟨fs', hfs', hget, hother⟩ := ih (fsSetSolution fs k (pyStrip a)) hnd' hex'
    have hw : write_solutions ((k, a) :: rest) fs =
        write_solutions rest (fsSetSolution fs k (pyStrip a)) := by
      show List.foldl _
          (if (fsGet fs k).isSome = true then some (fsSetSolution fs k (pyStrip a))
           else none) rest =
        write_solutions rest (fsSetSolution fs k (pyStrip a))
      rw [if_pos hk]
      rfl
    refine ⟨fs', by rw [hw]; exact hfs', ?_, ?_⟩
    · intro q hq hqs
      rcases List.mem_cons.mp hq with h | h
      · subst h
        have h1 : fsGet fs' k = fsGet (fsSetSolution fs k (pyStrip a)) k :=
          hother k hknotin
        show (fsGet fs' k).bind get_solution = some (pyStrip a)
        rw [h1, fsGet_set_self]
        cases hgk : fsGet fs k with
        | none => rw [hgk] at hk; cases hk
        | some dcur =>
          show get_solution ⟨dcur.verifyFile, some (pyStrip a)⟩ = some (pyStrip a)
          show (if pyStrip (pyStrip a) = "" then none else some (pyStrip (pyStrip a))) =
            some (pyStrip a)
          rw [pyStrip_idem, if_neg hqs]
      · exact hget q h hqs
    · intro k0 hk0
      have hk0r : k0 ∉ rest.map Prod.fst := fun hh =>
        hk0 (by simp only [List.map_cons, List.mem_cons]; exact Or.inr hh)
      have hne : k0 ≠ k := fun e => hk0 (by simp [e])
      rw [hother k0 hk0r, fsGet_set_other fs k k0 (pyStrip a) hne]

/-- Witness for C10 at a concrete filesystem and solved map. -/
theorem C10_witness :
    ∃ fs', write_solutions [((0 : Int), "  Abc ")] [((0 : Int), ⟨none, none⟩)] = some fs' ∧
      (∀ p ∈ [((0 : Int), "  Abc ")], pyStrip p.2 ≠ "" →
        get_solution_at fs' p.1 = some (pyStrip p.2)) ∧
      (∀ k : Int, k ∉ [((0 : Int), "  Abc ")].map Prod.fst →
        fsGet fs' k = fsGet [((0 : Int), (⟨none, none⟩ : RiddleDir))] k) :=
  C10_persist_roundtrip [((0 : Int), ⟨none, none⟩)] [((0 : Int), "  Abc ")]
    (by decide) (by decide)


end MovieRiddles
